import Mathlib

/-!
Shallow embedding of the raw-form parser of `app.py` (the faculty-rating
Streamlit app): the column segmenter `identify_course_columns`, the per-row
extraction loop, the batch cleaning pass over the ratings table, and the
group-by-mean aggregation.

Modelling conventions:
* A spreadsheet header is `Option String`: `some s` for a string header,
  `none` for a non-string placeholder (pandas can produce non-string column
  labels; the code guards markers with `isinstance(col, str)`).
* A cell value is `Value`: `na` for pandas NaN / missing (`pd.isna` is true
  exactly on it), `str` for strings, `num` for numbers (rationals stand in
  for floats; no claim here depends on float rounding).
* Cell access `row[raw_df.columns[i]]` is modelled positionally (value at
  column `i`), matching the spec's invariant that column identity is
  positional; pandas label lookup coincides with this whenever the looked-up
  labels are unique in the header list.
-/

/-- A cell value of the raw table: pandas NaN/missing, a string, or a number. -/
inductive Value where
  | na : Value
  | str (s : String) : Value
  | num (q : ℚ) : Value
deriving DecidableEq

/-- Model of `pd.isna` on scalars: true exactly on the missing sentinel. -/
def Value.isna : Value → Bool
  | Value.na => true
  | _ => false

/-- A header starts a course block iff it is a string starting with the
literal prefix `"Feedback on "` (`isinstance(col, str) and
col.startswith('Feedback on ')`, app.py line 414). The prefix test is on
the character sequence, which is what Python `str.startswith` checks. -/
def isMarker : Option String → Bool
  | some s => "Feedback on ".data.isPrefixOf s.data
  | none => false

/-- The loop body of `identify_course_columns` (app.py lines 413-425),
processing the remaining headers given the next column index `i`, the
current course `cc` (`None` initially) and the current block buffer `cb`.
On a marker: close the buffer if non-empty, set the course to the marker
header, restart with an empty buffer (the marker column itself joins no
block). On a non-marker with a course open: append the index. At the end
the pending non-empty buffer is closed. -/
def identifyAux : List (Option String) → Nat → Option String → List Nat →
    List (Option String × List Nat)
  | [], _, cc, cb => if cb.isEmpty then [] else [(cc, cb)]
  | c :: rest, i, cc, cb =>
    if isMarker c then
      (if cb.isEmpty then [] else [(cc, cb)]) ++ identifyAux rest (i + 1) c []
    else if cc.isSome then
      identifyAux rest (i + 1) cc (cb ++ [i])
    else
      identifyAux rest (i + 1) cc cb

/-- `identify_course_columns` (app.py lines 408-427): partition the header
list into course blocks `(course_label, column_indices)`. -/
def identify_course_columns (columns : List (Option String)) :
    List (Option String × List Nat) :=
  identifyAux columns 0 none []

/-- Flatten a marker/segment decomposition back into a header list: each
part contributes its marker header followed by its segment of headers. -/
def partsFlat (parts : List (Option String × List (Option String))) :
    List (Option String) :=
  parts.flatMap (fun p => p.1 :: p.2)

/-- The blocks the segmenter is expected to produce for a decomposition
starting at absolute position `i`: one block per part, labelled by the
part's marker, holding exactly the contiguous positions strictly between
this marker and the next one (or the end). -/
def expectedBlocks : Nat → List (Option String × List (Option String)) →
    List (Option String × List Nat)
  | _, [] => []
  | i, (m, seg) :: rest =>
    (m, List.range' (i + 1) seg.length) :: expectedBlocks (i + 1 + seg.length) rest

/-- Well-formed decomposition: every part's lead header is a marker, every
part's segment is non-empty and marker-free. -/
def PartsWF (parts : List (Option String × List (Option String))) : Prop :=
  ∀ p ∈ parts, isMarker p.1 = true ∧ p.2 ≠ [] ∧ ∀ h ∈ p.2, isMarker h = false

/-- Substring test on character lists, modelling Python's `sub in s`:
true iff `sub` occurs contiguously in `l`. -/
def hasSub (sub : List Char) : List Char → Bool
  | [] => sub.isPrefixOf []
  | c :: t => sub.isPrefixOf (c :: t) || hasSub sub t

/-- Does the header contain the given substring? Models
`substr in raw_df.columns[i]`; a non-string header never matches (in
Python `in` on a non-string label is outside the working domain). -/
def hdrContains (h : Option String) (sub : String) : Bool :=
  match h with
  | some s => hasSub sub.data s.data
  | none => false

/-- Index of the first column whose header equals the given fixed name,
modelling pandas label lookup `row.get(name, None)` for a unique label. -/
def headerIndex (cols : List (Option String)) (name : String) : Option Nat :=
  cols.findIdx? (fun h => h == some name)

/-- Value of the named field in a row: the value at the first column with
that header, or NaN when no such header exists (`row.get(name, None)` and
`pd.isna(None)` is true). -/
def rowGetByName (cols : List (Option String)) (row : List Value) (name : String) : Value :=
  match headerIndex cols name with
  | some i => row.getD i Value.na
  | none => Value.na

/-- One row of the long-form faculty-ratings table (app.py lines 459-465,
one list entry per emitted record). -/
structure RatingRecord where
  studentName : Value
  srn : Value
  sect : Value
  facultyName : Value
  course : Option String
  ratingCategory : Option String
  rating : Value
deriving DecidableEq

/-- One row of the comments table (app.py lines 472-478). -/
structure CommentRecord where
  student : Value
  srn : Value
  faculty : Value
  course : Option String
  comment : Value
deriving DecidableEq

/-- One row of the course-feedback table (app.py lines 487-493). -/
structure CourseFeedbackRecord where
  student : Value
  srn : Value
  course : Option String
  question : Option String
  rating : Value
deriving DecidableEq

/-- Per-(row, block) extraction (app.py lines 442-493). Finds the faculty
column (first block index whose header contains `"Name of the Faculty"`);
if none, the whole block yields nothing for this row. Otherwise emits one
RatingRecord per `"Please give a rating"` column with non-NaN value, at
most one CommentRecord from the first column whose header equals
`"Comments"` (when its value is non-NaN), and one CourseFeedbackRecord per
`"The course"` column with non-NaN value. -/
def processBlock (cols : List (Option String)) (row : List Value)
    (student srn sect : Value) :
    Option String × List Nat →
    List RatingRecord × List CommentRecord × List CourseFeedbackRecord
  | (course, idxs) =>
  match idxs.filter (fun i => hdrContains (cols.getD i none) "Name of the Faculty") with
  | [] => ([], [], [])
  | fc :: _ =>
    let faculty := row.getD fc Value.na
    let questionCols := idxs.filter (fun i => hdrContains (cols.getD i none) "Please give a rating")
    let ratingRecs := questionCols.filterMap (fun q =>
      let r := row.getD q Value.na
      if r.isna then none
      else some ⟨student, srn, sect, faculty, course, cols.getD q none, r⟩)
    let commentRecs :=
      match idxs.filter (fun i => cols.getD i none == some "Comments") with
      | [] => []
      | cIdx :: _ =>
        let v := row.getD cIdx Value.na
        if v.isna then []
        else [(⟨student, srn, faculty, course, v⟩ : CommentRecord)]
    let cfCols := idxs.filter (fun i => hdrContains (cols.getD i none) "The course")
    let cfRecs := cfCols.filterMap (fun q =>
      let r := row.getD q Value.na
      if r.isna then none
      else some ⟨student, srn, course, cols.getD q none, r⟩)
    (ratingRecs, commentRecs, cfRecs)

/-- Per-row processing (app.py lines 433-493): read the student name, SRN
and section by fixed header name; skip the whole row when student name or
SRN is NaN/missing; otherwise process every course block in order. -/
def processRow (cols : List (Option String)) (blocks : List (Option String × List Nat))
    (row : List Value) :
    List RatingRecord × List CommentRecord × List CourseFeedbackRecord :=
  let student := rowGetByName cols row "Name of the Student"
  let srn := rowGetByName cols row "SRN"
  let sect := rowGetByName cols row "Section"
  if student.isna || srn.isna then ([], [], [])
  else
    (blocks.flatMap (fun b => (processBlock cols row student srn sect b).1),
     blocks.flatMap (fun b => (processBlock cols row student srn sect b).2.1),
     blocks.flatMap (fun b => (processBlock cols row student srn sect b).2.2))

/-- The whole raw-form extraction pass (app.py lines 429-510): segment the
headers into course blocks, then accumulate the three record lists over
all rows in order. -/
def extractAll (cols : List (Option String)) (rows : List (List Value)) :
    List RatingRecord × List CommentRecord × List CourseFeedbackRecord :=
  let blocks := identify_course_columns cols
  (rows.flatMap (fun r => (processRow cols blocks r).1),
   rows.flatMap (fun r => (processRow cols blocks r).2.1),
   rows.flatMap (fun r => (processRow cols blocks r).2.2))

/-- Whitespace in the sense of Python's `str.strip` / regex `\s` for the
ASCII range: space, tab, newline, carriage return, vertical tab, form
feed. -/
def isWs (c : Char) : Bool :=
  c == ' ' || c == '\t' || c == '\n' || c == '\r' || c == '\x0b' || c == '\x0c'

/-- Python `str.strip()` on a character list: drop leading and trailing
whitespace. -/
def trimChars (l : List Char) : List Char :=
  ((l.dropWhile isWs).reverse.dropWhile isWs).reverse

/-- A separator in the section regex `[ -]`. -/
def isSep (c : Char) : Bool :=
  c == ' ' || c == '-'

/-- An uppercase letter in the section regex `[A-Z]`. -/
def isUpperAZ (c : Char) : Bool :=
  decide (65 ≤ c.toNat) && decide (c.toNat ≤ 90)

/-- Consume at most one leading character satisfying `p` (a greedy `X?`
regex element; no backtracking is needed because everything after it in
the pattern is optional too). -/
def consumeOpt (p : Char → Bool) : List Char → List Char
  | [] => []
  | c :: rest => if p c then rest else c :: rest

/-- What remains after greedily matching the tail `[ -]?[A-Z]?[ -]?` of
the section regex. -/
def sectionTail (l : List Char) : List Char :=
  consumeOpt isSep (consumeOpt isUpperAZ (consumeOpt isSep l))

/-- One left-to-right scan of `re.sub(r"Section[ -]?[A-Z]?[ -]?", "", s)`
(app.py line 513): at each position, if the literal `"Section"` starts
here, delete it together with the greedy optional tail and continue after
the match; otherwise keep the character and move on. `fuel` bounds the
number of steps; every step consumes at least one input character, so
`l.length` steps always complete the scan (the fuel rendering keeps the
recursion structural so that concrete inputs evaluate inside proofs). -/
def stripSectionsFuel : Nat → List Char → List Char
  | 0, l => l
  | _ + 1, [] => []
  | fuel + 1, c :: rest =>
    if "Section".data.isPrefixOf (c :: rest) then
      stripSectionsFuel fuel (sectionTail ((c :: rest).drop 7))
    else
      c :: stripSectionsFuel fuel rest

/-- Remove every occurrence of the section pattern from a character list. -/
def stripSections (l : List Char) : List Char :=
  stripSectionsFuel l.length l

/-- The faculty-name cleaning transform (app.py line 513):
`.astype(str).str.replace(r"Section[ -]?[A-Z]?[ -]?", "", regex=True).str.strip()`
on a string value (on which `astype(str)` is the identity). -/
def clean_faculty (s : String) : String :=
  ⟨trimChars (stripSections s.data)⟩

/-- One character of the `.str.replace(r"\s+", " ", regex=True)` pass:
every whitespace character becomes a plain space. -/
def normWsChar (c : Char) : Char :=
  if isWs c then ' ' else c

/-- Collapse adjacent double spaces left to right; after `normWsChar` has
mapped every whitespace character to a space this collapses each maximal
whitespace run to a single space, exactly what replacing `\s+` by a
single space does. -/
def squeezeChars : List Char → List Char
  | [] => []
  | [c] => [c]
  | a :: b :: rest =>
    if a == ' ' && b == ' ' then squeezeChars (b :: rest)
    else a :: squeezeChars (b :: rest)

/-- `.str.split("(").str[0]`: everything strictly before the first literal
`'('`, or the whole list when none occurs. -/
def truncParen (l : List Char) : List Char :=
  l.takeWhile (fun c => c != '(')

/-- The rating-category cleaning transform (app.py lines 516-523):
strip, lowercase, collapse whitespace runs to one space, truncate at the
first `'('`, strip again. `Char.toLower` matches Python `str.lower` on the
ASCII range used by the headers. -/
def cleanCatChars (l : List Char) : List Char :=
  trimChars (truncParen (squeezeChars (((trimChars l).map Char.toLower).map normWsChar)))

/-- The rating-category cleaning transform on strings. -/
def clean_category (s : String) : String :=
  ⟨cleanCatChars s.data⟩

/-- No two adjacent characters of the list are both spaces. -/
def noDoubleSpace : List Char → Bool
  | a :: b :: rest => !(a == ' ' && b == ' ') && noDoubleSpace (b :: rest)
  | _ => true

/-- Numeric value of a decimal digit character. -/
def digitVal (c : Char) : Option Nat :=
  if 48 ≤ c.toNat ∧ c.toNat ≤ 57 then some (c.toNat - 48) else none

/-- Value of a digit run (most significant first); `some 0` on the empty
run, the callers decide whether an empty run is legal. -/
def digitsVal (l : List Char) : Option Nat :=
  l.foldl
    (fun acc c =>
      match acc, digitVal c with
      | some n, some d => some (n * 10 + d)
      | _, _ => none)
    (some 0)

/-- Parse an unsigned decimal literal: digits with at most one decimal
point and at least one digit overall. -/
def parseUnsigned (l : List Char) : Option ℚ :=
  let ip := l.takeWhile Char.isDigit
  let rest := l.dropWhile Char.isDigit
  match rest with
  | [] =>
    if ip.isEmpty then none
    else (digitsVal ip).map (fun n => (n : ℚ))
  | '.' :: fp =>
    if fp.all Char.isDigit && !(ip.isEmpty && fp.isEmpty) then
      match digitsVal ip, digitsVal fp with
      | some n, some f => some ((n : ℚ) + (f : ℚ) / (10 : ℚ) ^ fp.length)
      | _, _ => none
    else none
  | _ => none

/-- Parse a signed decimal literal after stripping surrounding
whitespace. -/
def parseNumeric (l : List Char) : Option ℚ :=
  match trimChars l with
  | '-' :: rest => (parseUnsigned rest).map (fun q => -q)
  | '+' :: rest => parseUnsigned rest
  | rest => parseUnsigned rest

/-- Model of `pd.to_numeric(..., errors='coerce')` (app.py line 526) on
one value: numbers pass through, NaN stays NaN, and a string is parsed as
an optionally signed decimal literal, anything else coercing to the NaN
sentinel (`none`) instead of raising. Exotic spellings (exponents,
infinities) are outside the domain exercised here. -/
def to_numeric : Value → Option ℚ
  | Value.na => none
  | Value.num q => some q
  | Value.str s => parseNumeric s.data

/-- One row of the ratings table after the batch cleaning pass: cleaned
faculty name, cleaned category, coerced rating. -/
structure CleanRating where
  faculty : String
  category : Option String
  rating : Option ℚ
deriving DecidableEq

/-- Python `str(...)` as applied by `.astype(str)` to a cell value; NaN
displays as "nan" (numeric display is abbreviated to the rational's
canonical form, which no claim exercises). -/
def pyStr : Value → String
  | Value.na => "nan"
  | Value.str s => s
  | Value.num q => toString q

/-- The category cleaning lifted to a header: pandas `.str` operations
leave a non-string entry as NaN, modelled by `none`. -/
def clean_category_header : Option String → Option String
  | some s => some (clean_category s)
  | none => none

/-- The batch cleaning pass of app.py lines 513-526 applied to one
RatingRecord: section-strip the faculty name (after `astype(str)`),
normalize the category, coerce the rating. -/
def cleanRecord (r : RatingRecord) : CleanRating :=
  ⟨clean_faculty (pyStr r.facultyName), clean_category_header r.ratingCategory,
    to_numeric r.rating⟩

/-- The ratings of the `(faculty, category)` group, in order (the column
`Rating` of the group produced by `groupby(["Faculty Name", "Rating
Category"])`, app.py lines 534-537). -/
def groupRatings (rs : List CleanRating) (fac : String) (cat : Option String) :
    List (Option ℚ) :=
  (rs.filter (fun r => r.faculty == fac && r.category == cat)).map (fun r => r.rating)

/-- Pandas mean of a column with NaN entries: the arithmetic mean of the
non-NaN entries, NaN (`none`) when there are none. -/
def meanOfGroup (vs : List (Option ℚ)) : Option ℚ :=
  let nums := vs.filterMap id
  if nums.isEmpty then none else some (nums.sum / nums.length)

/-- The `avg_ratings` aggregation (app.py lines 534-537): mean rating of
one `(faculty, category)` group. -/
def avg_ratings (rs : List CleanRating) (fac : String) (cat : Option String) :
    Option ℚ :=
  meanOfGroup (groupRatings rs fac cat)

/-- Three cleaned records in one group, built by the cleaning pass from
the raw ratings `[4, "N/A", 2]` (spec example for mean computation). -/
def exampleGroup : List CleanRating :=
  [cleanRecord ⟨Value.str "Alice", Value.str "S1", Value.na, Value.str "F",
      some "Feedback on Math", some "Please give a rating", Value.num 4⟩,
   cleanRecord ⟨Value.str "Bob", Value.str "S2", Value.na, Value.str "F",
      some "Feedback on Math", some "Please give a rating", Value.str "N/A"⟩,
   cleanRecord ⟨Value.str "Eve", Value.str "S3", Value.na, Value.str "F",
      some "Feedback on Math", some "Please give a rating", Value.num 2⟩]

/-- The full processing pass as persisted to session state (app.py lines
495-531): raw extraction over all rows, then the batch cleaning applied
to the ratings table only; the comments and course-feedback tables are
stored as built. -/
def processTable (cols : List (Option String)) (rows : List (List Value)) :
    List CleanRating × List CommentRecord × List CourseFeedbackRecord :=
  ((extractAll cols rows).1.map cleanRecord,
   (extractAll cols rows).2.1,
   (extractAll cols rows).2.2)

/-- Header list of the concrete one-block table used to exhibit the frame
property of the batch cleaning pass. -/
def frameCols : List (Option String) :=
  [some "Name of the Student", some "SRN", some "Feedback on Math",
   some "Name of the Faculty", some "Please give a rating (1-5)",
   some "Comments", some "The course was useful"]

/-- The single row of that table: faculty name with a section suffix, a
numeric rating, a comment, and a course-feedback answer given as the
string "5". -/
def frameRow : List Value :=
  [Value.str "Alice", Value.str "S1", Value.na,
   Value.str "Dr. Jane Doe Section A", Value.num 4, Value.str "nice",
   Value.str "5"]

theorem identifyAux_append_seg (seg : List (Option String))
    (hseg : ∀ h ∈ seg, isMarker h = false) :
    ∀ (rest : List (Option String)) (i : Nat) (c : String) (cb : List Nat),
      identifyAux (seg ++ rest) i (some c) cb =
        identifyAux rest (i + seg.length) (some c) (cb ++ List.range' i seg.length) := by
  induction seg with
  | nil => intro rest i c cb; simp
  | cons h t ih =>
    intro rest i c cb
    have hh : isMarker h = false := hseg h (List.mem_cons_self h t)
    have ht : ∀ x ∈ t, isMarker x = false := fun x hx => hseg x (List.mem_cons_of_mem h hx)
    simp only [List.cons_append, identifyAux, hh, Bool.false_eq_true, if_false,
      Option.isSome_some, if_true, List.append_eq]
    rw [ih ht rest (i + 1) c (cb ++ [i])]
    have hr : List.range' i (h :: t).length = i :: List.range' (i + 1) t.length := by
      simp [List.range'_succ]
    rw [hr]
    simp only [List.length_cons]
    congr 1
    · omega
    · simp

theorem identifyAux_partsFlat (parts : List (Option String × List (Option String))) :
    PartsWF parts →
    ∀ (i : Nat) (cc : Option String) (cb : List Nat),
      identifyAux (partsFlat parts) i cc cb =
        (if cb.isEmpty then [] else [(cc, cb)]) ++ expectedBlocks i parts := by
  induction parts with
  | nil =>
    intro _ i cc cb
    simp [partsFlat, identifyAux, expectedBlocks]
  | cons p rest ih =>
    intro hwf i cc cb
    obtain ⟨m, seg⟩ := p
    have hp := hwf (m, seg) (List.mem_cons_self _ _)
    have hm : isMarker m = true := hp.1
    have hsegne : seg ≠ [] := hp.2.1
    have hsegnm : ∀ h ∈ seg, isMarker h = false := hp.2.2
    have hrest : PartsWF rest := fun q hq => hwf q (List.mem_cons_of_mem _ hq)
    obtain ⟨s, hs⟩ : ∃ s, m = some s := by
      cases m with
      | none => simp [isMarker] at hm
      | some s => exact ⟨s, rfl⟩
    subst hs
    have hflat : partsFlat ((some s, seg) :: rest) = some s :: (seg ++ partsFlat rest) := by
      simp [partsFlat]
    rw [hflat]
    simp only [identifyAux, hm, if_true]
    rw [identifyAux_append_seg seg hsegnm (partsFlat rest) (i + 1) s []]
    rw [ih hrest (i + 1 + seg.length) (some s) ([] ++ List.range' (i + 1) seg.length)]
    have hne : (List.range' (i + 1) seg.length).isEmpty = false := by
      obtain ⟨a, t2, hseq⟩ := List.exists_cons_of_ne_nil hsegne
      subst hseq
      simp [List.range'_succ]
    simp only [List.nil_append]
    rw [hne]
    simp [expectedBlocks]

theorem identifyAux_append_pre (pre : List (Option String))
    (hpre : ∀ h ∈ pre, isMarker h = false) :
    ∀ (rest : List (Option String)) (i : Nat),
      identifyAux (pre ++ rest) i none [] = identifyAux rest (i + pre.length) none [] := by
  induction pre with
  | nil => intro rest i; simp
  | cons h t ih =>
    intro rest i
    have hh : isMarker h = false := hpre h (List.mem_cons_self h t)
    have ht : ∀ x ∈ t, isMarker x = false := fun x hx => hpre x (List.mem_cons_of_mem h hx)
    simp only [List.cons_append, identifyAux, hh, Bool.false_eq_true, if_false,
      Option.isSome_none, List.append_eq]
    rw [ih ht rest (i + 1)]
    have harith : i + 1 + t.length = i + (h :: t).length := by simp; omega
    rw [harith]

theorem expectedBlocks_length (parts : List (Option String × List (Option String))) :
    ∀ i, (expectedBlocks i parts).length = parts.length := by
  induction parts with
  | nil => intro i; rfl
  | cons p rest ih =>
    intro i
    obtain ⟨m, seg⟩ := p
    simp [expectedBlocks, ih]

theorem expectedBlocks_pos_gt (parts : List (Option String × List (Option String))) :
    ∀ i, ∀ blk ∈ expectedBlocks i parts, ∀ p ∈ blk.2, i < p := by
  induction parts with
  | nil => intro i blk hblk; simp [expectedBlocks] at hblk
  | cons q rest ih =>
    intro i blk hblk p hp
    obtain ⟨m, seg⟩ := q
    simp only [expectedBlocks, List.mem_cons] at hblk
    rcases hblk with hblk | hblk
    · subst hblk
      simp only [List.mem_range'] at hp
      omega
    · have := ih (i + 1 + seg.length) blk hblk p hp
      omega

/-- C1: Column Segmenter block contiguity. For a header list decomposed as a
marker-free prefix followed by parts, each part a marker header plus a
non-empty marker-free segment of headers, the segmenter returns exactly one
block per part, in header order, whose label is the part's marker and whose
column indices are exactly the contiguous positions strictly between that
marker and the next marker (or the end) — this is what `expectedBlocks`
computes; moreover the number of blocks equals the number of markers, and
no position at or before the first marker (the prefix and the marker
itself) belongs to any block. -/
theorem segmenter_block_contiguity (pre : List (Option String))
    (parts : List (Option String × List (Option String)))
    (hpre : ∀ h ∈ pre, isMarker h = false) (hwf : PartsWF parts) :
    identify_course_columns (pre ++ partsFlat parts) = expectedBlocks pre.length parts ∧
    (identify_course_columns (pre ++ partsFlat parts)).length = parts.length ∧
    ∀ blk ∈ identify_course_columns (pre ++ partsFlat parts),
      ∀ p ∈ blk.2, pre.length < p := by
  have heq : identify_course_columns (pre ++ partsFlat parts) =
      expectedBlocks pre.length parts := by
    unfold identify_course_columns
    rw [identifyAux_append_pre pre hpre (partsFlat parts) 0]
    rw [identifyAux_partsFlat parts hwf (0 + pre.length) none []]
    simp
  refine ⟨heq, ?_, ?_⟩
  · rw [heq]; exact expectedBlocks_length parts pre.length
  · rw [heq]; exact expectedBlocks_pos_gt parts pre.length

/-- C1 witness: a concrete header list — one unassigned leading column, then
two marker headers with one and two trailing columns respectively — yields
exactly the two expected contiguous blocks. -/
theorem segmenter_block_contiguity_witness :
    identify_course_columns
        [some "SRN", some "Feedback on Math", some "Q1",
         some "Feedback on Phys", some "Q2", some "Q3"] =
      [(some "Feedback on Math", [2]), (some "Feedback on Phys", [4, 5])] := by
  have h := segmenter_block_contiguity [some "SRN"]
    [(some "Feedback on Math", [some "Q1"]),
     (some "Feedback on Phys", [some "Q2", some "Q3"])]
    (by intro h hh; simp at hh; subst hh; rfl)
    (by
      intro p hp
      simp only [List.mem_cons, List.not_mem_nil, or_false] at hp
      rcases hp with hp | hp <;> subst hp
      · exact ⟨by rfl, by simp, by intro x hx; simp at hx; subst hx; rfl⟩
      · refine ⟨by rfl, by simp, ?_⟩
        intro x hx
        simp only [List.mem_cons, List.not_mem_nil, or_false] at hx
        rcases hx with hx | hx <;> subst hx <;> rfl)
  have := h.1
  simpa [expectedBlocks] using this

/-- C4: two adjacent marker headers drop the first marker. Whatever the
segmenter state (index `i`, current course `cc`, buffer `cb`), on seeing
two markers in a row it only closes the pending buffer (attributed to the
previous course), and continues with the second marker as current course
and an empty buffer: no CourseBlock is ever emitted for the first marker. -/
theorem adjacent_markers_drop_first (m1 m2 : Option String)
    (rest : List (Option String)) (i : Nat) (cc : Option String) (cb : List Nat)
    (h1 : isMarker m1 = true) (h2 : isMarker m2 = true) :
    identifyAux (m1 :: m2 :: rest) i cc cb =
      (if cb.isEmpty then [] else [(cc, cb)]) ++ identifyAux rest (i + 2) m2 [] := by
  simp only [identifyAux, h1, h2, if_true, List.isEmpty_nil, List.nil_append,
    List.append_assoc]

theorem identifyAux_inv (cols : List (Option String)) :
    ∀ (l : List (Option String)) (i : Nat) (cc : Option String) (cb : List Nat),
      (∀ j, l[j]? = cols[i + j]?) →
      (∀ s, cc = some s → isMarker (some s) = true ∧ (some s) ∈ cols) →
      (cb ≠ [] → cc ≠ none) →
      (∀ p ∈ cb, ∃ h, cols[p]? = some h ∧ isMarker h = false) →
      ∀ blk ∈ identifyAux l i cc cb,
        isMarker blk.1 = true ∧ blk.1 ∈ cols ∧
        ∀ p ∈ blk.2, ∃ h, cols[p]? = some h ∧ isMarker h = false := by
  intro l
  induction l with
  | nil =>
    intro i cc cb _ hcc hne hcb blk hblk
    simp only [identifyAux] at hblk
    by_cases he : cb.isEmpty
    · simp [he] at hblk
    · rw [if_neg he] at hblk
      simp only [List.mem_singleton] at hblk
      subst hblk
      have hcbne : cb ≠ [] := by
        intro h; subst h; simp at he
      obtain ⟨s, hs⟩ : ∃ s, cc = some s := by
        cases cc with
        | none => exact absurd rfl (hne hcbne)
        | some s => exact ⟨s, rfl⟩
      subst hs
      exact ⟨(hcc s rfl).1, (hcc s rfl).2, hcb⟩
  | cons c rest ih =>
    intro i cc cb hl hcc hne hcb blk hblk
    have hci : cols[i]? = some c := by
      have := hl 0
      simp at this
      exact this.symm
    have hlrest : ∀ j, rest[j]? = cols[(i + 1) + j]? := by
      intro j
      have := hl (j + 1)
      rw [List.getElem?_cons_succ] at this
      rw [this]
      congr 1
      omega
    simp only [identifyAux] at hblk
    by_cases hm : isMarker c = true
    · rw [if_pos hm] at hblk
      rw [List.mem_append] at hblk
      rcases hblk with hblk | hblk
      · by_cases he : cb.isEmpty
        · simp [he] at hblk
        · rw [if_neg he] at hblk
          simp only [List.mem_singleton] at hblk
          subst hblk
          have hcbne : cb ≠ [] := by intro h; subst h; simp at he
          obtain ⟨s, hs⟩ : ∃ s, cc = some s := by
            cases cc with
            | none => exact absurd rfl (hne hcbne)
            | some s => exact ⟨s, rfl⟩
          subst hs
          exact ⟨(hcc s rfl).1, (hcc s rfl).2, hcb⟩
      · refine ih (i + 1) c [] hlrest ?_ (by simp) (by simp) blk hblk
        intro s hs
        subst hs
        exact ⟨hm, List.getElem?_mem hci⟩
    · rw [if_neg hm] at hblk
      have hmf : isMarker c = false := by
        cases h : isMarker c with
        | true => exact absurd h hm
        | false => rfl
      by_cases hs : cc.isSome
      · rw [if_pos hs] at hblk
        refine ih (i + 1) cc (cb ++ [i]) hlrest hcc (by
          intro _
          intro hnone
          subst hnone
          simp at hs) ?_ blk hblk
        intro p hp
        rw [List.mem_append] at hp
        rcases hp with hp | hp
        · exact hcb p hp
        · simp only [List.mem_singleton] at hp
          subst hp
          exact ⟨c, hci, hmf⟩
      · rw [if_neg hs] at hblk
        exact ih (i + 1) cc cb hlrest hcc hne hcb blk hblk

/-- C9: marker headers label but never join blocks. Every block the
segmenter emits is labelled by a header of the list that is a marker
(a string carrying the `"Feedback on "` prefix verbatim, since the label
is the header text itself), and every column index of every block points
at a non-marker header — in particular no marker's own column index is a
member of any block's column_indices. -/
theorem marker_labels_never_join_blocks (cols : List (Option String))
    (blk : Option String × List Nat) (hblk : blk ∈ identify_course_columns cols) :
    isMarker blk.1 = true ∧ blk.1 ∈ cols ∧
      ∀ p ∈ blk.2, ∃ h, cols[p]? = some h ∧ isMarker h = false := by
  refine identifyAux_inv cols cols 0 none [] ?_ ?_ ?_ ?_ blk hblk
  · intro j; simp
  · intro s hs; cases hs
  · intro h; exact absurd rfl h
  · intro p hp; simp at hp

/-- C9 witness: on a concrete header list the single emitted block is
labelled by the marker header verbatim and its index set excludes the
marker's own position. -/
theorem marker_labels_never_join_blocks_witness :
    isMarker (some "Feedback on Math", [1]).1 = true ∧
      (some "Feedback on Math", ([1] : List Nat)).1 ∈
        [some "Feedback on Math", some "Q1"] ∧
      ∀ p ∈ (some "Feedback on Math", ([1] : List Nat)).2,
        ∃ h, [some "Feedback on Math", some "Q1"][p]? = some h ∧ isMarker h = false :=
  marker_labels_never_join_blocks [some "Feedback on Math", some "Q1"]
    (some "Feedback on Math", [1]) (by
      have : identify_course_columns [some "Feedback on Math", some "Q1"] =
          [(some "Feedback on Math", [1])] := by decide
      rw [this]
      exact List.mem_singleton.mpr rfl)

/-- C4 witness: with two adjacent markers at the head and one trailing
column, only the second marker yields a block. -/
theorem adjacent_markers_drop_first_witness :
    identifyAux [some "Feedback on A", some "Feedback on B", some "Q"] 0 none [] =
      [(some "Feedback on B", [2])] := by
  rw [adjacent_markers_drop_first (some "Feedback on A") (some "Feedback on B")
    [some "Q"] 0 none [] (by rfl) (by rfl)]
  rfl

/-- C3: per-row gate. A fixed-name field lookup on a header list lacking
that header is missing (NaN), and whenever the "Name of the Student" or
"SRN" lookup of a row is NaN/missing — which covers blank cells and absent
headers alike — the row contributes zero records to all three output
lists, regardless of any other column value. -/
theorem row_gate (cols : List (Option String))
    (blocks : List (Option String × List Nat)) (row : List Value) :
    (∀ name, headerIndex cols name = none →
      (rowGetByName cols row name).isna = true) ∧
    ((rowGetByName cols row "Name of the Student").isna = true ∨
        (rowGetByName cols row "SRN").isna = true →
      processRow cols blocks row = ([], [], [])) := by
  constructor
  · intro name hnone
    unfold rowGetByName
    rw [hnone]
    rfl
  · intro h
    unfold processRow
    rcases h with h | h <;> simp [h]

/-- C3 witness: a row whose table has no "SRN" header (so the SRN field is
missing) produces zero records in all three output sets even though its
other fields are populated. -/
theorem row_gate_witness :
    processRow [some "Name of the Student", some "Feedback on Math", some "Q"]
        [(some "Feedback on Math", [2])] [Value.str "Alice", Value.na, Value.num 5] =
      ([], [], []) :=
  (row_gate [some "Name of the Student", some "Feedback on Math", some "Q"]
      [(some "Feedback on Math", [2])] [Value.str "Alice", Value.na, Value.num 5]).2
    (Or.inr
      ((row_gate [some "Name of the Student", some "Feedback on Math", some "Q"]
          [(some "Feedback on Math", [2])] [Value.str "Alice", Value.na, Value.num 5]).1
        "SRN" (by decide)))

theorem processBlock_found (cols : List (Option String)) (row : List Value)
    (student srn sect : Value) (course : Option String) (idxs : List Nat)
    (fc : Nat) (frest : List Nat)
    (h : idxs.filter (fun i => hdrContains (cols.getD i none) "Name of the Faculty") =
      fc :: frest) :
    processBlock cols row student srn sect (course, idxs) =
      ((idxs.filter (fun i => hdrContains (cols.getD i none) "Please give a rating")).filterMap
          (fun q =>
            if (row.getD q Value.na).isna then none
            else some ⟨student, srn, sect, row.getD fc Value.na, course,
              cols.getD q none, row.getD q Value.na⟩),
        (match idxs.filter (fun i => cols.getD i none == some "Comments") with
          | [] => []
          | cIdx :: _ =>
            if (row.getD cIdx Value.na).isna then []
            else [⟨student, srn, row.getD fc Value.na, course, row.getD cIdx Value.na⟩]),
        (idxs.filter (fun i => hdrContains (cols.getD i none) "The course")).filterMap
          (fun q =>
            if (row.getD q Value.na).isna then none
            else some ⟨student, srn, course, cols.getD q none, row.getD q Value.na⟩)) := by
  simp only [processBlock]
  rw [h]

/-- C5: missing faculty column skips the block atomically. The faculty
column of a block is the first block index whose header contains the
substring `"Name of the Faculty"`; when the filter finds none the block
contributes no record of any kind for this row, and when it finds
`fc :: rest` every RatingRecord and every CommentRecord the block emits
carries the row's value at `fc` as its faculty name. -/
theorem missing_faculty_skips_block (cols : List (Option String)) (row : List Value)
    (student srn sect : Value) (course : Option String) (idxs : List Nat) :
    (idxs.filter (fun i => hdrContains (cols.getD i none) "Name of the Faculty") = [] →
      processBlock cols row student srn sect (course, idxs) = ([], [], [])) ∧
    (∀ fc frest,
      idxs.filter (fun i => hdrContains (cols.getD i none) "Name of the Faculty") =
        fc :: frest →
      (∀ rr ∈ (processBlock cols row student srn sect (course, idxs)).1,
        rr.facultyName = row.getD fc Value.na) ∧
      (∀ cr ∈ (processBlock cols row student srn sect (course, idxs)).2.1,
        cr.faculty = row.getD fc Value.na)) := by
  constructor
  · intro h
    simp only [processBlock]
    rw [h]
  · intro fc frest h
    rw [processBlock_found cols row student srn sect course idxs fc frest h]
    constructor
    · intro rr hrr
      simp only [List.mem_filterMap] at hrr
      obtain ⟨q, _, hq⟩ := hrr
      by_cases hna : (row.getD q Value.na).isna
      · rw [if_pos hna] at hq; cases hq
      · rw [if_neg hna] at hq
        cases hq
        rfl
    · intro cr hcr
      rcases hcm : idxs.filter (fun i => cols.getD i none == some "Comments") with
        _ | ⟨c, crest⟩
      · rw [hcm] at hcr; simp at hcr
      · rw [hcm] at hcr
        simp only at hcr
        by_cases hna : (row.getD c Value.na).isna
        · rw [if_pos hna] at hcr; simp at hcr
        · rw [if_neg hna] at hcr
          simp only [List.mem_singleton] at hcr
          subst hcr
          rfl

/-- C5 witness: a block whose two columns mention no faculty header emits
nothing at all for the row, although its rating column holds a value. -/
theorem missing_faculty_skips_block_witness :
    processBlock [some "Feedback on Math", some "Please give a rating", some "Comments"]
        [Value.na, Value.num 4, Value.str "nice"] (Value.str "Alice") (Value.str "S1")
        Value.na (some "Feedback on Math", [1, 2]) = ([], [], []) :=
  (missing_faculty_skips_block
      [some "Feedback on Math", some "Please give a rating", some "Comments"]
      [Value.na, Value.num 4, Value.str "nice"] (Value.str "Alice") (Value.str "S1")
      Value.na (some "Feedback on Math") [1, 2]).1 (by decide)

/-- C6: CommentRecord emission. In a block with a resolved faculty column
`fc`, if no column header equals `"Comments"` the block emits no
CommentRecord, and if the first such column is `c` it emits exactly one
CommentRecord when the row's value at `c` is non-blank — carrying the
student, SRN, the row's faculty value, the block's course label and the
comment value — and none when that value is NaN/blank. -/
theorem comment_emission (cols : List (Option String)) (row : List Value)
    (student srn sect : Value) (course : Option String) (idxs : List Nat)
    (fc : Nat) (frest : List Nat)
    (hfac : idxs.filter (fun i => hdrContains (cols.getD i none) "Name of the Faculty") =
      fc :: frest) :
    (idxs.filter (fun i => cols.getD i none == some "Comments") = [] →
      (processBlock cols row student srn sect (course, idxs)).2.1 = []) ∧
    (∀ c crest, idxs.filter (fun i => cols.getD i none == some "Comments") = c :: crest →
      (processBlock cols row student srn sect (course, idxs)).2.1 =
        if (row.getD c Value.na).isna then []
        else [⟨student, srn, row.getD fc Value.na, course, row.getD c Value.na⟩]) := by
  constructor
  · intro h
    simp only [processBlock]
    rw [hfac, h]
  · intro c crest h
    simp only [processBlock]
    rw [hfac, h]

/-- C6 witness: in a concrete block with a faculty column and a "Comments"
column holding a non-blank value, exactly one CommentRecord with the
expected fields is emitted; the same theorem also evaluates the claim on
the blank-comment variant of the row through its `if`. -/
theorem comment_emission_witness :
    (processBlock
        [some "Feedback on Math", some "Name of the Faculty", some "Comments"]
        [Value.na, Value.str "Dr. Doe", Value.str "great"] (Value.str "Alice")
        (Value.str "S1") Value.na (some "Feedback on Math", [1, 2])).2.1 =
      [⟨Value.str "Alice", Value.str "S1", Value.str "Dr. Doe",
        some "Feedback on Math", Value.str "great"⟩] := by
  rw [(comment_emission
      [some "Feedback on Math", some "Name of the Faculty", some "Comments"]
      [Value.na, Value.str "Dr. Doe", Value.str "great"] (Value.str "Alice")
      (Value.str "S1") Value.na (some "Feedback on Math") [1, 2] 1 []
      (by decide)).2 2 [] (by decide)]
  decide

/-- C8: faculty-name section stripping maps "Dr. Jane Doe Section A" and
"Dr. Jane Doe Section-B " to "Dr. Jane Doe", and leaves "Dr. Jane Doe"
unchanged. -/
theorem faculty_section_stripping :
    clean_faculty "Dr. Jane Doe Section A" = "Dr. Jane Doe" ∧
    clean_faculty "Dr. Jane Doe Section-B " = "Dr. Jane Doe" ∧
    clean_faculty "Dr. Jane Doe" = "Dr. Jane Doe" := by
  refine ⟨?_, ?_, ?_⟩ <;> decide

theorem char_toNat_ofNat_lt (n : Nat) (h : n < 55296) : (Char.ofNat n).toNat = n := by
  unfold Char.ofNat
  rw [dif_pos (Or.inl h)]
  rfl

theorem toLower_eq (c : Char) :
    Char.toLower c =
      if 65 ≤ c.toNat ∧ c.toNat ≤ 90 then Char.ofNat (c.toNat + 32) else c := rfl

theorem toLower_toNat (c : Char) :
    (Char.toLower c).toNat =
      if 65 ≤ c.toNat ∧ c.toNat ≤ 90 then c.toNat + 32 else c.toNat := by
  rw [toLower_eq]
  split_ifs with h
  · exact char_toNat_ofNat_lt _ (by omega)
  · rfl

theorem toLower_idem (c : Char) :
    Char.toLower (Char.toLower c) = Char.toLower c := by
  by_cases h : 65 ≤ c.toNat ∧ c.toNat ≤ 90
  · have h1 : (Char.toLower c).toNat = c.toNat + 32 := by
      rw [toLower_toNat, if_pos h]
    rw [toLower_eq (Char.toLower c), if_neg (by rw [h1]; omega)]
  · have h1 : (Char.toLower c).toNat = c.toNat := by
      rw [toLower_toNat, if_neg h]
    rw [toLower_eq (Char.toLower c), if_neg (by rw [h1]; exact h)]

theorem normWs_idem (c : Char) : normWsChar (normWsChar c) = normWsChar c := by
  by_cases h : isWs c = true
  · simp [normWsChar, h]
  · simp [normWsChar, h]

theorem toLower_fix_normWs (c : Char) (h : Char.toLower c = c) :
    Char.toLower (normWsChar c) = normWsChar c := by
  by_cases hw : isWs c = true
  · simp only [normWsChar, hw, if_true]
    decide
  · simp only [normWsChar, hw, Bool.false_eq_true, if_false]
    exact h

theorem noDouble_tail (x : Char) (l : List Char)
    (h : noDoubleSpace (x :: l) = true) : noDoubleSpace l = true := by
  cases l with
  | nil => rfl
  | cons y r =>
    simp only [noDoubleSpace, Bool.and_eq_true] at h
    exact h.2

theorem noDouble_cons_of (x : Char) (l : List Char) (hl : noDoubleSpace l = true)
    (hx : ¬(x = ' ' ∧ l.head? = some ' ')) : noDoubleSpace (x :: l) = true := by
  cases l with
  | nil => rfl
  | cons y r =>
    have h1 : (x == ' ' && y == ' ') = false := by
      by_cases hxs : x = ' '
      · by_cases hys : y = ' '
        · exact absurd ⟨hxs, by simp [hys]⟩ hx
        · simp [hys]
      · simp [hxs]
    simp only [noDoubleSpace, Bool.and_eq_true, h1]
    exact ⟨rfl, hl⟩

theorem head?_squeeze (l : List Char) : (squeezeChars l).head? = l.head? := by
  induction l with
  | nil => rfl
  | cons a t ih =>
    cases t with
    | nil => rfl
    | cons b r =>
      simp only [squeezeChars]
      split_ifs with h
      · rw [ih]
        have hab : a = ' ' ∧ b = ' ' := by
          simp only [Bool.and_eq_true, beq_iff_eq] at h
          exact h
        simp [hab.1, hab.2]
      · rfl

theorem squeeze_noDouble (l : List Char) : noDoubleSpace (squeezeChars l) = true := by
  induction l with
  | nil => rfl
  | cons a t ih =>
    cases t with
    | nil => rfl
    | cons b r =>
      simp only [squeezeChars]
      split_ifs with h
      · exact ih
      · refine noDouble_cons_of a _ ih ?_
        rw [head?_squeeze]
        rintro ⟨ha, hb⟩
        simp only [List.head?_cons, Option.some_inj] at hb
        exact h (by simp [ha, hb])

theorem noDouble_fix (l : List Char) (h : noDoubleSpace l = true) :
    squeezeChars l = l := by
  induction l with
  | nil => rfl
  | cons a t ih =>
    cases t with
    | nil => rfl
    | cons b r =>
      have h1 := noDouble_tail a (b :: r) h
      have h2 : (a == ' ' && b == ' ') = false := by
        simp only [noDoubleSpace, Bool.and_eq_true] at h
        have := h.1
        cases hab : (a == ' ' && b == ' ') with
        | false => rfl
        | true => rw [hab] at this; cases this
      simp only [squeezeChars, h2, Bool.false_eq_true, if_false]
      rw [ih h1]

theorem noDouble_append (l1 l2 : List Char)
    (h : noDoubleSpace (l1 ++ l2) = true) :
    noDoubleSpace l1 = true ∧ noDoubleSpace l2 = true := by
  induction l1 with
  | nil => exact ⟨rfl, h⟩
  | cons x t ih =>
    rw [List.cons_append] at h
    have ht := noDouble_tail x (t ++ l2) h
    obtain ⟨h1, h2⟩ := ih ht
    refine ⟨?_, h2⟩
    cases t with
    | nil => rfl
    | cons y r =>
      have hh : (!(x == ' ' && y == ' ')) = true := by
        rw [List.cons_append] at h
        simp only [noDoubleSpace, Bool.and_eq_true] at h
        exact h.1
      show noDoubleSpace (x :: y :: r) = true
      simp only [noDoubleSpace, Bool.and_eq_true]
      exact ⟨hh, h1⟩

theorem dropWhile_head_false (p : Char → Bool) (l : List Char) :
    ∀ a, (l.dropWhile p).head? = some a → p a = false := by
  induction l with
  | nil => intro a h; cases h
  | cons x t ih =>
    intro a h
    rw [List.dropWhile_cons] at h
    split_ifs at h with hx
    · exact ih a h
    · simp only [List.head?_cons, Option.some_inj] at h
      subst h
      cases hpx : p x with
      | false => rfl
      | true => exact absurd hpx hx

theorem dropWhile_eq_self_of_head (p : Char → Bool) (l : List Char)
    (h : ∀ a, l.head? = some a → p a = false) : l.dropWhile p = l := by
  cases l with
  | nil => rfl
  | cons x t =>
    rw [List.dropWhile_cons, h x rfl]
    simp

theorem dropWhile_idem (p : Char → Bool) (l : List Char) :
    (l.dropWhile p).dropWhile p = l.dropWhile p :=
  dropWhile_eq_self_of_head p _ (dropWhile_head_false p l)

theorem getLast?_dropWhile (p : Char → Bool) (l : List Char)
    (h : l.dropWhile p ≠ []) : (l.dropWhile p).getLast? = l.getLast? := by
  obtain ⟨t, ht⟩ := List.dropWhile_suffix (l := l) p
  conv_rhs => rw [← ht]
  exact (List.getLast?_append_of_ne_nil t h).symm

theorem trimChars_head (l : List Char) :
    ∀ a, (trimChars l).head? = some a → isWs a = false := by
  intro a ha
  unfold trimChars at ha
  rw [List.head?_reverse] at ha
  by_cases hB : (l.dropWhile isWs).reverse.dropWhile isWs = []
  · rw [hB] at ha; cases ha
  · rw [getLast?_dropWhile isWs _ hB, List.getLast?_reverse] at ha
    exact dropWhile_head_false isWs l a ha

theorem trimChars_getLast (l : List Char) :
    ∀ a, (trimChars l).getLast? = some a → isWs a = false := by
  intro a ha
  unfold trimChars at ha
  rw [List.getLast?_reverse] at ha
  exact dropWhile_head_false isWs _ a ha

theorem trimChars_trimChars (l : List Char) :
    trimChars (trimChars l) = trimChars l := by
  have h1 : (trimChars l).dropWhile isWs = trimChars l :=
    dropWhile_eq_self_of_head _ _ (trimChars_head l)
  have h2 : ∀ a, (trimChars l).reverse.head? = some a → isWs a = false := by
    intro a ha
    rw [List.head?_reverse] at ha
    exact trimChars_getLast l a ha
  show (((trimChars l).dropWhile isWs).reverse.dropWhile isWs).reverse = trimChars l
  rw [h1, dropWhile_eq_self_of_head _ _ h2, List.reverse_reverse]

theorem mem_trimChars (l : List Char) : ∀ x ∈ trimChars l, x ∈ l := by
  intro x hx
  unfold trimChars at hx
  rw [List.mem_reverse] at hx
  have h1 := (List.dropWhile_sublist isWs).subset hx
  rw [List.mem_reverse] at h1
  exact (List.dropWhile_sublist isWs).subset h1

theorem mem_squeezeChars (l : List Char) : ∀ x ∈ squeezeChars l, x ∈ l := by
  induction l with
  | nil => intro x hx; exact hx
  | cons a t ih =>
    cases t with
    | nil => intro x hx; exact hx
    | cons b r =>
      intro x hx
      simp only [squeezeChars] at hx
      split_ifs at hx with h
      · exact List.mem_cons_of_mem a (ih x hx)
      · rcases List.mem_cons.mp hx with hx | hx
        · exact hx ▸ List.mem_cons_self a _
        · exact List.mem_cons_of_mem a (ih x hx)

theorem noDouble_trimChars (l : List Char) (h : noDoubleSpace l = true) :
    noDoubleSpace (trimChars l) = true := by
  obtain ⟨t, ht⟩ := List.dropWhile_suffix (l := l) isWs
  rw [← ht] at h
  have hA : noDoubleSpace (l.dropWhile isWs) = true := (noDouble_append _ _ h).2
  obtain ⟨w, hw⟩ := List.dropWhile_suffix (l := (l.dropWhile isWs).reverse) isWs
  have hArev : l.dropWhile isWs =
      ((l.dropWhile isWs).reverse.dropWhile isWs).reverse ++ w.reverse := by
    have hc := congrArg List.reverse hw
    simp only [List.reverse_append, List.reverse_reverse] at hc
    exact hc.symm
  rw [hArev] at hA
  exact (noDouble_append _ _ hA).1

theorem noDouble_takeWhile (p : Char → Bool) (l : List Char)
    (h : noDoubleSpace l = true) : noDoubleSpace (l.takeWhile p) = true := by
  rw [← List.takeWhile_append_dropWhile (p := p) (l := l)] at h
  exact (noDouble_append _ _ h).1

theorem takeWhile_eq_self_of_all (p : Char → Bool) (l : List Char)
    (h : ∀ x ∈ l, p x = true) : l.takeWhile p = l := by
  induction l with
  | nil => rfl
  | cons a t ih =>
    rw [List.takeWhile_cons, h a (List.mem_cons_self a t)]
    simp only [if_true]
    rw [ih (fun x hx => h x (List.mem_cons_of_mem a hx))]

theorem cleanCatChars_idem (l : List Char) :
    cleanCatChars (cleanCatChars l) = cleanCatChars l := by
  have hmem : ∀ x ∈ cleanCatChars l, ∃ y, x = normWsChar (Char.toLower y) := by
    intro x hx
    unfold cleanCatChars at hx
    have h1 := mem_trimChars _ x hx
    have h2 := (List.takeWhile_sublist _).subset h1
    have h3 := mem_squeezeChars _ x h2
    rw [List.mem_map] at h3
    obtain ⟨y, hy, hxy⟩ := h3
    rw [List.mem_map] at hy
    obtain ⟨z, _, hyz⟩ := hy
    exact ⟨z, by rw [← hxy, ← hyz]⟩
  have hlower : ∀ x ∈ cleanCatChars l, Char.toLower x = x := by
    intro x hx
    obtain ⟨y, hy⟩ := hmem x hx
    subst hy
    exact toLower_fix_normWs _ (toLower_idem y)
  have hnorm : ∀ x ∈ cleanCatChars l, normWsChar x = x := by
    intro x hx
    obtain ⟨y, hy⟩ := hmem x hx
    subst hy
    exact normWs_idem _
  have hparen : ∀ x ∈ cleanCatChars l, (x != '(') = true := by
    intro x hx
    unfold cleanCatChars truncParen at hx
    have h1 := mem_trimChars _ x hx
    have h2 := List.mem_takeWhile_imp h1
    exact h2
  have htrim : trimChars (cleanCatChars l) = cleanCatChars l := by
    unfold cleanCatChars
    exact trimChars_trimChars _
  have hnd : noDoubleSpace (cleanCatChars l) = true := by
    unfold cleanCatChars
    apply noDouble_trimChars
    apply noDouble_takeWhile
    exact squeeze_noDouble _
  have hmap1 : (cleanCatChars l).map Char.toLower = cleanCatChars l := by
    calc (cleanCatChars l).map Char.toLower = (cleanCatChars l).map id :=
        List.map_congr_left hlower
    _ = cleanCatChars l := List.map_id _
  have hmap2 : (cleanCatChars l).map normWsChar = cleanCatChars l := by
    calc (cleanCatChars l).map normWsChar = (cleanCatChars l).map id :=
        List.map_congr_left hnorm
    _ = cleanCatChars l := List.map_id _
  conv_lhs => rw [cleanCatChars]
  rw [htrim, hmap1, hmap2, noDouble_fix _ hnd]
  unfold truncParen
  rw [takeWhile_eq_self_of_all _ _ hparen]
  exact htrim

/-- C7: category normalization is idempotent. Applying the
rating-category cleaning transform twice yields the same result as
applying it once, for every input string; concretely,
"Please give a rating (1-5) " maps to "please give a rating", which is
unchanged on re-application. -/
theorem category_normalization_idempotent :
    (∀ s : String, clean_category (clean_category s) = clean_category s) ∧
    clean_category "Please give a rating (1-5) " = "please give a rating" ∧
    clean_category "please give a rating" = "please give a rating" := by
  refine ⟨?_, ?_, ?_⟩
  · intro s
    show (⟨cleanCatChars (clean_category s).data⟩ : String) = ⟨cleanCatChars s.data⟩
    have : (clean_category s).data = cleanCatChars s.data := rfl
    rw [this, cleanCatChars_idem]
  · decide
  · decide

theorem groupRatings_append (rs1 rs2 : List CleanRating) (fac : String)
    (cat : Option String) :
    groupRatings (rs1 ++ rs2) fac cat =
      groupRatings rs1 fac cat ++ groupRatings rs2 fac cat := by
  simp [groupRatings, List.filter_append]

theorem meanOfGroup_drop_none (vs1 vs2 : List (Option ℚ)) :
    meanOfGroup (vs1 ++ none :: vs2) = meanOfGroup (vs1 ++ vs2) := by
  simp [meanOfGroup, List.filterMap_append]

/-- C2: aggregation ignores non-numeric ratings. (1) The string "N/A"
coerces to the NaN sentinel rather than raising. (2) A record whose
coerced rating is the sentinel can be dropped from its group without
changing the group's mean. (3) A group whose ratings are exactly the
valid values `qs` has mean `qs.sum / qs.length`. (4) Concretely, three
records built by the cleaning pass from the raw ratings `[4, "N/A", 2]`
in one `(faculty, category)` group average to `3`. -/
theorem aggregation_mean_ignores_nonnumeric :
    to_numeric (Value.str "N/A") = none ∧
    (∀ (rs1 rs2 : List CleanRating) (r : CleanRating) (fac : String)
        (cat : Option String),
      r.faculty = fac → r.category = cat → r.rating = none →
      avg_ratings (rs1 ++ r :: rs2) fac cat = avg_ratings (rs1 ++ rs2) fac cat) ∧
    (∀ (rs : List CleanRating) (fac : String) (cat : Option String) (qs : List ℚ),
      groupRatings rs fac cat = qs.map some → qs ≠ [] →
      avg_ratings rs fac cat = some (qs.sum / qs.length)) ∧
    avg_ratings exampleGroup "F" (some "please give a rating") = some 3 := by
  refine ⟨rfl, ?_, ?_, ?_⟩
  · intro rs1 rs2 r fac cat hfac hcat hrat
    unfold avg_ratings
    rw [groupRatings_append, groupRatings_append]
    have hr : groupRatings [r] fac cat = [none] := by
      have hcond : (r.faculty == fac && r.category == cat) = true := by
        rw [hfac, hcat]
        simp
      simp [groupRatings, hcond, hrat]
    have hsplit : groupRatings (r :: rs2) fac cat =
        groupRatings [r] fac cat ++ groupRatings rs2 fac cat := by
      have : r :: rs2 = [r] ++ rs2 := rfl
      rw [this, groupRatings_append]
    rw [hsplit, hr]
    exact meanOfGroup_drop_none _ _
  · intro rs fac cat qs hg hne
    unfold avg_ratings meanOfGroup
    rw [hg]
    have hfm : (qs.map some).filterMap id = qs := by
      simp [List.filterMap_map]
    rw [hfm]
    rw [if_neg (by simp [List.isEmpty_eq_true]; exact hne)]
  · have hg : groupRatings exampleGroup "F" (some "please give a rating") =
        [some (4 : ℚ), none, some (2 : ℚ)] := by decide
    unfold avg_ratings
    rw [hg]
    unfold meanOfGroup
    have h1 : ([some (4 : ℚ), none, some (2 : ℚ)].filterMap id) = [4, 2] := rfl
    rw [h1]
    rw [if_neg (by simp)]
    have h2 : ([(4 : ℚ), 2].sum / (([(4 : ℚ), 2].length : Nat) : ℚ)) = 3 := by
      simp [List.sum_cons, List.sum_nil]
      norm_num
    rw [h2]

/-- C2 witness: the sentinel-dropping part applied to a concrete group
(a NaN-rated record leaves the mean alone) and the valid-values part
applied to a concrete two-element group. -/
theorem aggregation_mean_ignores_nonnumeric_witness :
    avg_ratings ([⟨"F", some "c", some 4⟩] ++
        (⟨"F", some "c", none⟩ : CleanRating) :: [⟨"F", some "c", some 2⟩])
        "F" (some "c") =
      avg_ratings ([⟨"F", some "c", some 4⟩] ++ [⟨"F", some "c", some 2⟩])
        "F" (some "c") ∧
    avg_ratings [⟨"F", some "c", some 4⟩, ⟨"F", some "c", some 2⟩] "F" (some "c") =
      some (([(4 : ℚ), 2].sum / ([(4 : ℚ), 2].length : ℚ))) :=
  ⟨aggregation_mean_ignores_nonnumeric.2.1 [⟨"F", some "c", some 4⟩]
      [⟨"F", some "c", some 2⟩] ⟨"F", some "c", none⟩ "F" (some "c") rfl rfl rfl,
   aggregation_mean_ignores_nonnumeric.2.2.1
      [⟨"F", some "c", some 4⟩, ⟨"F", some "c", some 2⟩] "F" (some "c")
      [4, 2] (by decide) (by decide)⟩

/-- C10: the batch normalization pass is framed on the ratings table.
For every input, the comments and course-feedback outputs of the full
pass are exactly the raw extraction outputs — no faculty cleaning,
category cleaning or numeric coercion touches them. On the concrete
one-block table, the emitted CommentRecord still carries the raw faculty
name "Dr. Jane Doe Section A" while the cleaned rating row carries
"Dr. Jane Doe" (so the two may differ), and the CourseFeedbackRecord
still carries the uncoerced string rating "5". -/
theorem batch_cleaning_frame :
    (∀ (cols : List (Option String)) (rows : List (List Value)),
      (processTable cols rows).2.1 = (extractAll cols rows).2.1 ∧
      (processTable cols rows).2.2 = (extractAll cols rows).2.2) ∧
    (processTable frameCols [frameRow]).2.1 =
      [⟨Value.str "Alice", Value.str "S1", Value.str "Dr. Jane Doe Section A",
        some "Feedback on Math", Value.str "nice"⟩] ∧
    (processTable frameCols [frameRow]).2.2 =
      [⟨Value.str "Alice", Value.str "S1", some "Feedback on Math",
        some "The course was useful", Value.str "5"⟩] ∧
    (processTable frameCols [frameRow]).1 =
      [⟨"Dr. Jane Doe", some "please give a rating", some 4⟩] := by
  refine ⟨fun cols rows => ⟨rfl, rfl⟩, ?_, ?_, ?_⟩ <;> decide
